import Mathlib

/-
Verification of the provenance-tracked structured-data editing core of the
document-processing-assistant repository.

The embedding covers:
  - the diff/commit logic of JsonEditor.render (app/components/json_editor.py),
  - update_json_with_provenance, get_field_history and export_provenance_report
    (app/utils/json_manager.py),
  - JsonEditor._load_json (app/components/json_editor.py),
  - the save-path construction in main (app/main.py).

Python strings are modelled as lists of characters (Str).  File-system and
clock effects are made explicit parameters: the wall clock becomes a timestamp
argument, the file system becomes a function from paths to optional contents,
and writability of an output target becomes a boolean.
-/

namespace DocProc

/-- Character-list model of a Python string. -/
abbrev Str := List Char

/-- Converts a Lean string literal to its character-list model. -/
def str (s : String) : Str := s.data

/-- Python str.strip(): removes leading and trailing whitespace. -/
def pyStrip (s : Str) : Str :=
  ((s.dropWhile Char.isWhitespace).reverse.dropWhile Char.isWhitespace).reverse

/-- Python string comparison (lexicographic by code point), as used by
sorted(..., key=lambda x: x["timestamp"]) in export_provenance_report. -/
def strLe : Str → Str → Bool
  | [], _ => true
  | _ :: _, [] => false
  | a :: as, b :: bs => if a < b then true else if b < a then false else strLe as bs

/-- One extracted key/value row as stored in the JSON file: an element of
data["values"] in json_editor.py, with fields name, value, type and rules. -/
structure ExtractionValue where
  name : Str
  value : Str
  type : Str
  rules : List Str
deriving Repr, DecidableEq

/-- The action tag of a detected change (json_editor.py lines 104-136). -/
inductive Action where
  | added
  | modified
  | deleted
deriving Repr, DecidableEq

/-- A single change record appended to the changes list in JsonEditor.render. -/
structure Change where
  field : Str
  old_value : Option Str
  new_value : Option Str
  action : Action
deriving Repr, DecidableEq

/-- Reviewer identity: the user_info dictionary with name and email. -/
structure UserInfo where
  name : Str
  email : Str
deriving Repr, DecidableEq

/-- One audit entry of the _provenance list (json_editor.py lines 156-162,
json_manager.py lines 25-31). -/
structure ProvenanceEntry where
  timestamp : Str
  user : UserInfo
  document : Str
  changes : List Change
  notes : Str
deriving Repr, DecidableEq

/-- The in-memory extraction record: the values list together with the
_provenance list (both defaulted to empty when missing, json_editor.py
lines 40-43). -/
structure ExtractionRecord where
  values : List ExtractionValue
  provenance : List ProvenanceEntry
deriving Repr, DecidableEq

/-- One row of the editor DataFrame built in JsonEditor.render lines 46-63:
the positional id plus the displayed name, value, type and the comma-joined
rules text. -/
structure Row where
  id : Nat
  name : Str
  value : Str
  type : Str
  rules : Str
deriving Repr, DecidableEq

/-- The rules display text: ", ".join(item["rules"]) (json_editor.py line 58). -/
def joinRules (rules : List Str) : Str := List.intercalate (str ", ") rules

/-- Re-parsing an edited rules text back to a list (json_editor.py
lines 142-145): a non-empty string is split on commas and each piece is
stripped; an empty string yields the empty list (the "rules if rules else []"
fallback on line 151). -/
def parseRules (s : Str) : List Str :=
  if s = [] then [] else (s.splitOn ',').map pyStrip

/-- The DataFrame row displayed for the value at index i (json_editor.py
lines 47-63). -/
def toRow (i : Nat) (v : ExtractionValue) : Row :=
  ⟨i, v.name, v.value, v.type, joinRules v.rules⟩

/-- Builds the DataFrame rows for a values list, numbering from i. -/
def toRowsFrom (i : Nat) : List ExtractionValue → List Row
  | [] => []
  | v :: vs => toRow i v :: toRowsFrom (i + 1) vs

/-- The DataFrame built from the record values (enumerate starting at 0). -/
def toRows (vs : List ExtractionValue) : List Row := toRowsFrom 0 vs

/-- The change emitted for one row of the edited DataFrame (json_editor.py
lines 102-123): a row whose id is beyond the original values list is added;
otherwise the row is compared field-by-field against the original DataFrame
row with the same id and is modified when any of name, value, type or the
joined rules text differs.  The none arm of the match is unreachable because
the id is then within bounds. -/
def rowChange (prev : List ExtractionValue) (row : Row) : Option Change :=
  if prev.length ≤ row.id then
    some ⟨row.name, none, some row.value, Action.added⟩
  else
    match prev[row.id]? with
    | none => none
    | some p =>
      if row.name = p.name ∧ row.value = p.value ∧ row.type = p.type ∧
          row.rules = joinRules p.rules then
        none
      else
        some ⟨row.name, some p.value, some row.value, Action.modified⟩

/-- The deletion changes (json_editor.py lines 125-137): one deleted change
for every original row whose id is absent from the edited DataFrame. -/
def deletionChanges (prev : List ExtractionValue) (edited : List Row) : List Change :=
  ((toRows prev).filter (fun r => !(edited.any (fun e => e.id == r.id)))).map
    (fun r => ⟨r.name, some r.value, none, Action.deleted⟩)

/-- The complete change list computed by JsonEditor.render lines 96-137:
added and modified changes in edited-row order, followed by the deletions. -/
def computeDiff (prev : List ExtractionValue) (edited : List Row) : List Change :=
  edited.filterMap (rowChange prev) ++ deletionChanges prev edited

/-- The replacement values list built from the edited DataFrame
(json_editor.py lines 139-152). -/
def updatedValues (edited : List Row) : List ExtractionValue :=
  edited.map (fun r => ⟨r.name, r.value, r.type, parseRules r.rules⟩)

/-- One commit step of JsonEditor.render lines 96-166: when the edited
DataFrame equals the displayed one nothing happens; otherwise the changes are
computed, the values are replaced by the edited rows, and a provenance entry
is appended exactly when the change list is non-empty. -/
def commit (rec : ExtractionRecord) (edited : List Row) (timestamp : Str)
    (user : UserInfo) (document : Str) (notes : Str) : ExtractionRecord :=
  if edited = toRows rec.values then rec
  else
    { values := updatedValues edited
      provenance :=
        if computeDiff rec.values edited = [] then rec.provenance
        else rec.provenance ++
          [⟨timestamp, user, document, computeDiff rec.values edited, notes⟩] }

/-- update_json_with_provenance (json_manager.py lines 4-36): appends one
provenance entry built from the given changes, user, document path and notes;
the wall-clock timestamp is an explicit argument. -/
def update_json_with_provenance (rec : ExtractionRecord) (changes : List Change)
    (user : UserInfo) (document : Str) (notes : Str) (timestamp : Str) :
    ExtractionRecord :=
  { rec with
    provenance := rec.provenance ++ [⟨timestamp, user, document, changes, notes⟩] }

/-- One flattened item returned by get_field_history. -/
structure HistoryItem where
  timestamp : Str
  user : UserInfo
  old_value : Option Str
  new_value : Option Str
  action : Action
  notes : Str
deriving Repr, DecidableEq

/-- get_field_history (json_manager.py lines 38-65): when the _provenance key
is absent the result is empty; otherwise the changes of every entry are scanned in
order and each change whose field equals the queried name is flattened into a
history item. -/
def get_field_history (provenanceKey : Option (List ProvenanceEntry))
    (field_name : Str) : List HistoryItem :=
  match provenanceKey with
  | none => []
  | some entries =>
    (entries.map (fun e =>
      (e.changes.filter (fun c => c.field == field_name)).map
        (fun c => HistoryItem.mk e.timestamp e.user c.old_value c.new_value
          c.action e.notes))).flatten

/-- The sorted copy built by export_provenance_report: sorted with key
timestamp, a stable sort under Python string comparison. -/
def sortedByTimestamp (entries : List ProvenanceEntry) : List ProvenanceEntry :=
  entries.mergeSort (fun a b => strLe a.timestamp b.timestamp)

/-- export_provenance_report (json_manager.py lines 67-94): returns False when
the _provenance key is absent; otherwise sorts a copy of the log by timestamp
and writes it, returning True, unless writing raises, in which case it returns
False.  Writability of the output target is the boolean parameter; the second
component is the content written, if any. -/
def export_provenance_report (provenanceKey : Option (List ProvenanceEntry))
    (writable : Bool) : Bool × Option (List ProvenanceEntry) :=
  match provenanceKey with
  | none => (false, none)
  | some entries =>
    if writable then (true, some (sortedByTimestamp entries))
    else (false, none)

/-- JsonEditor._load_json (json_editor.py lines 21-28): the file system maps
a path to none (no such file), some none (present but not valid JSON), or
some (some rec) (parses to a record).  Any failure yields the default record
with empty values and empty provenance; no exception reaches the caller. -/
def load_json (fs : Str → Option (Option ExtractionRecord)) (path : Str) :
    ExtractionRecord :=
  match fs path with
  | some (some rec) => rec
  | _ => ⟨[], []⟩

/-- os.path.basename: the portion of the path after the last slash. -/
def pyBasename (p : Str) : Str :=
  (p.reverse.takeWhile (fun c => !(c == '/'))).reverse

/-- os.path.splitext on a basename: splits at the last dot, except that a
name whose every character before that dot is itself a dot (such as a purely
leading-dot name) keeps its dots and has no extension. -/
def splitext (f : Str) : Str × Str :=
  match f.reverse.dropWhile (fun c => !(c == '.')) with
  | [] => (f, [])
  | c :: rrest =>
    if rrest.reverse.all (fun x => x == '.') then (f, [])
    else (rrest.reverse, c :: (f.reverse.takeWhile (fun x => !(x == '.'))).reverse)

/-- The decimal digit character for d modulo 10. -/
def digitChar (d : Nat) : Char :=
  match d % 10 with
  | 0 => '0' | 1 => '1' | 2 => '2' | 3 => '3' | 4 => '4'
  | 5 => '5' | 6 => '6' | 7 => '7' | 8 => '8' | _ => '9'

/-- Two-digit zero-padded decimal rendering (strftime field of width two). -/
def pad2 (n : Nat) : Str := [digitChar (n / 10), digitChar n]

/-- Four-digit zero-padded decimal rendering (strftime year field). -/
def pad4 (n : Nat) : Str :=
  [digitChar (n / 1000), digitChar (n / 100), digitChar (n / 10), digitChar n]

/-- datetime.now().strftime of the pattern YYYYMMDD underscore HHMMSS used by
main (app/main.py line 162). -/
def fmtTimestamp (year month day hour minute second : Nat) : Str :=
  pad4 year ++ pad2 month ++ pad2 day ++ ['_'] ++
    pad2 hour ++ pad2 minute ++ pad2 second

/-- The save path built by main (app/main.py lines 160-167): the original
file name is stripped of its directory and extension, suffixed with _edited_
and the timestamp, given a .json extension, and placed under ./temp. -/
def save_path (json_path : Str) (timestamp : Str) : Str :=
  let original_filename := pyBasename json_path
  let name_without_ext := (splitext original_filename).1
  str "./temp/" ++ name_without_ext ++ str "_edited_" ++ timestamp ++ str ".json"

/-! Helper lemmas about the DataFrame rows. -/

theorem toRowsFrom_mem {vs : List ExtractionValue} {k : Nat} {r : Row}
    (h : r ∈ toRowsFrom k vs) :
    ∃ j p, vs[j]? = some p ∧ r = toRow (k + j) p := by
  induction vs generalizing k with
  | nil => simp [toRowsFrom] at h
  | cons v vs ih =>
    simp only [toRowsFrom, List.mem_cons] at h
    rcases h with h | h
    · exact ⟨0, v, by simp, by simpa using h⟩
    · obtain ⟨j, p, hp, hr⟩ := ih h
      refine ⟨j + 1, p, by simpa using hp, ?_⟩
      rw [hr]
      congr 1
      omega

theorem toRowsFrom_getElem {vs : List ExtractionValue} {k i : Nat} :
    (toRowsFrom k vs)[i]? = (vs[i]?).map (toRow (k + i)) := by
  induction vs generalizing k i with
  | nil => simp [toRowsFrom]
  | cons v vs ih =>
    cases i with
    | zero => simp [toRowsFrom]
    | succ i =>
      have harith : k + 1 + i = k + (i + 1) := by omega
      simp only [toRowsFrom, List.getElem?_cons_succ]
      rw [ih, harith]

theorem toRowsFrom_length {vs : List ExtractionValue} {k : Nat} :
    (toRowsFrom k vs).length = vs.length := by
  induction vs generalizing k with
  | nil => rfl
  | cons v vs ih => simp [toRowsFrom, ih]

theorem rowChange_self {vs : List ExtractionValue} {j : Nat} {p : ExtractionValue}
    (hp : vs[j]? = some p) : rowChange vs (toRow j p) = none := by
  have hj : j < vs.length := by
    rcases List.getElem?_eq_some.mp hp with ⟨h, -⟩
    exact h
  simp [rowChange, toRow, Nat.not_le.mpr hj, hp]

theorem diff_self (vs : List ExtractionValue) : computeDiff vs (toRows vs) = [] := by
  unfold computeDiff
  rw [List.append_eq_nil]
  constructor
  · rw [List.filterMap_eq_nil_iff]
    intro r hr
    obtain ⟨j, p, hp, hr⟩ := toRowsFrom_mem hr
    rw [hr]
    simpa using rowChange_self hp
  · unfold deletionChanges
    have hfilter :
        (toRows vs).filter (fun r => !((toRows vs).any (fun e => e.id == r.id))) = [] := by
      rw [List.filter_eq_nil_iff]
      intro r hr
      have hany : (toRows vs).any (fun e => e.id == r.id) = true :=
        List.any_eq_true.mpr ⟨r, hr, by simp⟩
      simp [hany]
    rw [hfilter]
    rfl

theorem commit_self (rec : ExtractionRecord) (ts : Str) (u : UserInfo) (d n : Str) :
    commit rec (toRows rec.values) ts u d n = rec := by
  simp [commit]

/-- C1: for every ExtractionRecord, appending a ProvenanceEntry (via
update_json_with_provenance, and via the commit step of JsonEditor.render)
never decreases the length of the provenance log, never alters any previously
appended entry, and places the new entry at the end. -/
theorem provenance_append_only (rec : ExtractionRecord) (changes : List Change)
    (u : UserInfo) (d n ts : Str) (edited : List Row) :
    (update_json_with_provenance rec changes u d n ts).provenance.length
        = rec.provenance.length + 1 ∧
    (update_json_with_provenance rec changes u d n ts).provenance.take
        rec.provenance.length = rec.provenance ∧
    (update_json_with_provenance rec changes u d n ts).provenance.getLast?
        = some ⟨ts, u, d, changes, n⟩ ∧
    rec.provenance.length ≤ (commit rec edited ts u d n).provenance.length ∧
    (commit rec edited ts u d n).provenance.take rec.provenance.length
        = rec.provenance := by
  refine ⟨by simp [update_json_with_provenance], ?_, ?_, ?_, ?_⟩
  · simp [update_json_with_provenance, List.take_left]
  · simp [update_json_with_provenance, List.getLast?_concat]
  · unfold commit
    split
    · exact le_refl _
    · dsimp only
      split
      · exact le_refl _
      · simp
  · unfold commit
    split
    · simp
    · dsimp only
      split
      · simp
      · simp [List.take_left]

/-- C2: resubmitting the displayed rows unchanged (identical content and
order) produces an empty change list, appends no provenance entry and leaves
the record unchanged, so a second identical commit produces no growth in the
provenance length. -/
theorem identical_resubmission_noop (rec : ExtractionRecord) (ts : Str)
    (u : UserInfo) (d n : Str) :
    computeDiff rec.values (toRows rec.values) = [] ∧
    commit rec (toRows rec.values) ts u d n = rec ∧
    (commit rec (toRows rec.values) ts u d n).provenance.length
        = rec.provenance.length :=
  ⟨diff_self rec.values, commit_self rec ts u d n,
    by rw [commit_self rec ts u d n]⟩

/-- C3: an edited row whose id lies beyond the length of the previous values
list yields exactly the single added change with a null old value; in
particular diffing an empty previous list against one row yields exactly that
added change. -/
theorem added_row_diff :
    (∀ (prev : List ExtractionValue) (row : Row), prev.length ≤ row.id →
      rowChange prev row = some ⟨row.name, none, some row.value, Action.added⟩) ∧
    (∀ A : Row, computeDiff [] [A] =
      [⟨A.name, none, some A.value, Action.added⟩]) := by
  constructor
  · intro prev row h
    simp [rowChange, h]
  · intro A
    simp [computeDiff, deletionChanges, toRows, toRowsFrom, rowChange]

/-- Witness for C3 at one concrete input. -/
theorem added_row_diff_w :
    rowChange [] ⟨5, str "fee", str "7", str "number", str ""⟩
      = some ⟨str "fee", none, some (str "7"), Action.added⟩ :=
  added_row_diff.1 [] ⟨5, str "fee", str "7", str "number", str ""⟩ (by decide)

/-- C8: loading from a nonexistent path, or from a file whose content is not
valid JSON, raises nothing and yields the default record with empty values
and empty provenance. -/
theorem load_failure_default :
    ∀ (fs : Str → Option (Option ExtractionRecord)) (path : Str),
      (fs path = none → load_json fs path = ⟨[], []⟩) ∧
      (fs path = some none → load_json fs path = ⟨[], []⟩) := by
  intro fs path
  constructor <;> intro h <;> simp [load_json, h]

/-- Witness for C8: loading from an empty file system yields the default. -/
theorem load_failure_default_w :
    load_json (fun _ => none) (str "missing.json") = ⟨[], []⟩ :=
  (load_failure_default (fun _ => none) (str "missing.json")).1 rfl

theorem rowChange_not_deleted {prev : List ExtractionValue} {row : Row} {c : Change}
    (h : rowChange prev row = some c) : c.action ≠ Action.deleted := by
  unfold rowChange at h
  split at h
  · obtain rfl := Option.some.inj h
    simp
  · split at h
    · simp at h
    · split at h
      · simp at h
      · obtain rfl := Option.some.inj h
        simp

theorem computeDiff_nil_edited (prev : List ExtractionValue) :
    computeDiff prev [] =
      (toRows prev).map (fun r => ⟨r.name, some r.value, none, Action.deleted⟩) := by
  simp [computeDiff, deletionChanges]

/-- C4: the deleted changes of a diff are exactly one change per original row
whose id is absent from the edited rows, carrying the name and old value of the row
with a null new value; an empty edited row set turns every original row into
such a change, and diffing one original row against no rows yields exactly
that single deleted change. -/
theorem deleted_rows_diff :
    (∀ (prev : List ExtractionValue) (edited : List Row),
      (computeDiff prev edited).filter (fun c => c.action == Action.deleted)
        = deletionChanges prev edited) ∧
    (∀ (prev : List ExtractionValue) (i : Nat),
      (computeDiff prev [])[i]? =
        (prev[i]?).map (fun v => ⟨v.name, some v.value, none, Action.deleted⟩)) ∧
    (∀ prev : List ExtractionValue, (computeDiff prev []).length = prev.length) ∧
    (∀ A : ExtractionValue,
      computeDiff [A] [] = [⟨A.name, some A.value, none, Action.deleted⟩]) := by
  refine ⟨?_, ?_, ?_, ?_⟩
  · intro prev edited
    unfold computeDiff
    rw [List.filter_append]
    have h1 : (edited.filterMap (rowChange prev)).filter
        (fun c => c.action == Action.deleted) = [] := by
      rw [List.filter_eq_nil_iff]
      intro c hc
      obtain ⟨row, -, hr⟩ := List.mem_filterMap.mp hc
      simpa using rowChange_not_deleted hr
    have h2 : (deletionChanges prev edited).filter
        (fun c => c.action == Action.deleted) = deletionChanges prev edited := by
      rw [List.filter_eq_self]
      intro c hc
      obtain ⟨r, -, hr⟩ := List.mem_map.mp hc
      rw [← hr]
      rfl
    rw [h1, h2, List.nil_append]
  · intro prev i
    rw [computeDiff_nil_edited, List.getElem?_map, toRows, toRowsFrom_getElem]
    cases prev[i]? <;> rfl
  · intro prev
    rw [computeDiff_nil_edited, List.length_map, toRows, toRowsFrom_length]
  · intro A
    rw [computeDiff_nil_edited]
    rfl

theorem rowChange_existing {prev : List ExtractionValue} {row : Row}
    {p : ExtractionValue} (hp : prev[row.id]? = some p) :
    rowChange prev row =
      if row.name = p.name ∧ row.value = p.value ∧ row.type = p.type ∧
          row.rules = joinRules p.rules then none
      else some ⟨row.name, some p.value, some row.value, Action.modified⟩ := by
  have hj : row.id < prev.length := by
    rcases List.getElem?_eq_some.mp hp with ⟨h, -⟩
    exact h
  unfold rowChange
  rw [if_neg (Nat.not_le.mpr hj), hp]

/-- C5: committing the single edit of the value amount from 100 to 150 with
notes appends exactly one modified change carrying old value 100 and new
value 150 under one new provenance entry with those notes, and the stored
value becomes 150; in general a row present in both value sets is compared
field by field on name, value, type and rules text, and yields a modified
change exactly when some field differs. -/
theorem modified_value_scenario :
    (∀ (ts : Str) (u : UserInfo) (d : Str),
      commit ⟨[⟨str "amount", str "100", str "number", []⟩], []⟩
          [⟨0, str "amount", str "150", str "number", str ""⟩] ts u d
          (str "corrected OCR error")
        = ⟨[⟨str "amount", str "150", str "number", []⟩],
           [⟨ts, u, d,
             [⟨str "amount", some (str "100"), some (str "150"), Action.modified⟩],
             str "corrected OCR error"⟩]⟩) ∧
    (∀ (prev : List ExtractionValue) (row : Row) (p : ExtractionValue),
      prev[row.id]? = some p →
      rowChange prev row =
        if row.name = p.name ∧ row.value = p.value ∧ row.type = p.type ∧
            row.rules = joinRules p.rules then none
        else some ⟨row.name, some p.value, some row.value, Action.modified⟩) := by
  constructor
  · intro ts u d
    have hne : ([⟨0, str "amount", str "150", str "number", str ""⟩] : List Row)
        ≠ toRows [⟨str "amount", str "100", str "number", []⟩] := by decide
    have hch : computeDiff [⟨str "amount", str "100", str "number", []⟩]
        [⟨0, str "amount", str "150", str "number", str ""⟩]
        = [⟨str "amount", some (str "100"), some (str "150"), Action.modified⟩] := by
      decide
    have hv : updatedValues [⟨0, str "amount", str "150", str "number", str ""⟩]
        = [⟨str "amount", str "150", str "number", []⟩] := by decide
    rw [commit, if_neg hne, hch, hv]
    simp
  · exact fun prev row p hp => rowChange_existing hp

/-- Witness for C5 at one concrete input. -/
theorem modified_value_scenario_w :
    rowChange [⟨str "qty", str "3", str "number", []⟩]
        ⟨0, str "qty", str "4", str "number", str ""⟩
      = some ⟨str "qty", some (str "3"), some (str "4"), Action.modified⟩ := by
  have h := modified_value_scenario.2 [⟨str "qty", str "3", str "number", []⟩]
    ⟨0, str "qty", str "4", str "number", str ""⟩
    ⟨str "qty", str "3", str "number", []⟩ (by decide)
  rw [h]
  decide

theorem rowChange_renamed {prev : List ExtractionValue} {row : Row}
    {p : ExtractionValue} (hp : prev[row.id]? = some p) (hn : row.name ≠ p.name) :
    rowChange prev row
      = some ⟨row.name, some p.value, some row.value, Action.modified⟩ := by
  rw [rowChange_existing hp, if_neg]
  intro hc
  exact hn hc.1

/-- C10: when the name of a row at an existing index is edited, the single
modified change records the new name in its field member while the old value
comes from the original row; querying the field history afterwards finds the
modification under the new name and not under the original one. -/
theorem rename_uses_new_name :
    (∀ (prev : List ExtractionValue) (row : Row) (p : ExtractionValue),
      prev[row.id]? = some p → row.name ≠ p.name →
      rowChange prev row
        = some ⟨row.name, some p.value, some row.value, Action.modified⟩) ∧
    (∀ (ts : Str) (u : UserInfo) (d n : Str),
      get_field_history
          (some (commit ⟨[⟨str "total", str "10", str "number", []⟩], []⟩
            [⟨0, str "grand_total", str "12", str "number", str ""⟩] ts u d n).provenance)
          (str "total") = [] ∧
      get_field_history
          (some (commit ⟨[⟨str "total", str "10", str "number", []⟩], []⟩
            [⟨0, str "grand_total", str "12", str "number", str ""⟩] ts u d n).provenance)
          (str "grand_total")
        = [⟨ts, u, some (str "10"), some (str "12"), Action.modified, n⟩]) := by
  constructor
  · exact fun prev row p hp hn => rowChange_renamed hp hn
  · intro ts u d n
    have hne : ([⟨0, str "grand_total", str "12", str "number", str ""⟩] : List Row)
        ≠ toRows [⟨str "total", str "10", str "number", []⟩] := by decide
    have hch : computeDiff [⟨str "total", str "10", str "number", []⟩]
        [⟨0, str "grand_total", str "12", str "number", str ""⟩]
        = [⟨str "grand_total", some (str "10"), some (str "12"),
            Action.modified⟩] := by decide
    have hcommit : (commit ⟨[⟨str "total", str "10", str "number", []⟩], []⟩
        [⟨0, str "grand_total", str "12", str "number", str ""⟩] ts u d n).provenance
        = [⟨ts, u, d,
            [⟨str "grand_total", some (str "10"), some (str "12"),
              Action.modified⟩], n⟩] := by
      rw [commit, if_neg hne, hch]
      simp
    have hf1 : (str "grand_total" == str "total") = false := by decide
    have hf2 : (str "grand_total" == str "grand_total") = true := by decide
    constructor
    · rw [hcommit]
      simp [get_field_history, hf1]
    · rw [hcommit]
      simp [get_field_history, hf2]

/-- Witness for C10 at one concrete input. -/
theorem rename_uses_new_name_w :
    rowChange [⟨str "total", str "10", str "number", []⟩]
        ⟨0, str "grand_total", str "10", str "number", str ""⟩
      = some ⟨str "grand_total", some (str "10"), some (str "10"),
          Action.modified⟩ :=
  rename_uses_new_name.1 [⟨str "total", str "10", str "number", []⟩]
    ⟨0, str "grand_total", str "10", str "number", str ""⟩
    ⟨str "total", str "10", str "number", []⟩ (by decide) (by decide)

/-! Python string comparison is total and transitive, so the sort performed
by export_provenance_report is a genuine ascending reordering. -/

theorem strLe_cons_iff {x y : Char} {xs ys : Str} :
    strLe (x :: xs) (y :: ys) = true ↔ x < y ∨ (x = y ∧ strLe xs ys = true) := by
  simp only [strLe]
  by_cases h1 : x < y
  · simp [h1]
  · by_cases h2 : y < x
    · have hne : x ≠ y := (ne_of_lt h2).symm
      simp [h1, h2, hne]
    · have hxy : x = y := le_antisymm (not_lt.mp h2) (not_lt.mp h1)
      simp [h1, h2, hxy]

theorem strLe_total (a b : Str) : (strLe a b || strLe b a) = true := by
  induction a generalizing b with
  | nil => simp [strLe]
  | cons x xs ih =>
    cases b with
    | nil => simp [strLe]
    | cons y ys =>
      by_cases h1 : x < y
      · simp [strLe, h1]
      · by_cases h2 : y < x
        · simp [strLe, h1, h2]
        · have hxy : x = y := le_antisymm (not_lt.mp h2) (not_lt.mp h1)
          subst hxy
          simp [strLe, h1, h2, ih ys]

theorem strLe_trans (a b c : Str) (hab : strLe a b = true) (hbc : strLe b c = true) :
    strLe a c = true := by
  induction a generalizing b c with
  | nil => simp [strLe]
  | cons x xs ih =>
    cases b with
    | nil => simp [strLe] at hab
    | cons y ys =>
      cases c with
      | nil => simp [strLe] at hbc
      | cons z zs =>
        rcases strLe_cons_iff.mp hab with h1 | ⟨rfl, hab'⟩
        · rcases strLe_cons_iff.mp hbc with h2 | ⟨rfl, hbc'⟩
          · exact strLe_cons_iff.mpr (Or.inl (lt_trans h1 h2))
          · exact strLe_cons_iff.mpr (Or.inl h1)
        · rcases strLe_cons_iff.mp hbc with h2 | ⟨rfl, hbc'⟩
          · exact strLe_cons_iff.mpr (Or.inl h2)
          · exact strLe_cons_iff.mpr (Or.inr ⟨rfl, ih ys zs hab' hbc'⟩)

/-- C6 counterexample: with an empty but present provenance log and a
writable target, export_provenance_report returns success (True) and writes
an empty report, contradicting the claim that an empty log yields failure. -/
theorem export_empty_log_succeeds :
    export_provenance_report (some []) true = (true, some []) := by
  simp [export_provenance_report, sortedByTimestamp]

/-- C6 amended: export_provenance_report returns failure exactly when the
provenance key is absent or the output target is unwritable; an empty but
present log exports successfully as an empty report.  On success it writes a
copy of the log re-sorted ascending by timestamp: the written list is a
permutation of the live log, sorted under Python string comparison, and the
live log itself is not part of the output state, hence unchanged. -/
theorem export_provenance_report_spec :
    (∀ writable, export_provenance_report none writable = (false, none)) ∧
    (∀ provenanceKey, export_provenance_report provenanceKey false = (false, none)) ∧
    (∀ entries, export_provenance_report (some entries) true
        = (true, some (sortedByTimestamp entries))) ∧
    (∀ entries, List.Perm (sortedByTimestamp entries) entries) ∧
    (∀ entries, (sortedByTimestamp entries).Pairwise
        (fun a b => strLe a.timestamp b.timestamp = true)) := by
  refine ⟨fun w => rfl, ?_, fun e => rfl, ?_, ?_⟩
  · intro pk
    cases pk <;> rfl
  · intro entries
    exact List.mergeSort_perm entries _
  · intro entries
    exact List.sorted_mergeSort
      (fun a b c hab hbc => strLe_trans a.timestamp b.timestamp c.timestamp hab hbc)
      (fun a b => strLe_total a.timestamp b.timestamp) entries

/-! The rule-list round-trip: joining on comma-space and re-splitting on
commas with stripping. -/

/-- The comma-space separated text of a rules list equals the comma separated
text of the same list with a space prefixed to every element but the first. -/
def spaced : List Str → List Str
  | [] => []
  | a :: rest => a :: rest.map (fun r => ' ' :: r)

theorem intercalate_cons_ne {α : Type} (sep : List α) (a : List α)
    {l : List (List α)} (h : l ≠ []) :
    List.intercalate sep (a :: l) = a ++ sep ++ List.intercalate sep l := by
  cases l with
  | nil => exact absurd rfl h
  | cons b t =>
    unfold List.intercalate
    rw [List.intersperse_cons₂]
    simp [List.append_assoc]

theorem intercalate_cons_head {α : Type} (sep : List α) (c : α) (x : List α)
    (l : List (List α)) :
    List.intercalate sep ((c :: x) :: l) = c :: List.intercalate sep (x :: l) := by
  cases l with
  | nil => rfl
  | cons b t =>
    rw [intercalate_cons_ne sep (c :: x) (by simp),
      intercalate_cons_ne sep x (by simp)]
    simp

theorem joinRules_eq_spaced (rs : List Str) :
    joinRules rs = List.intercalate [','] (spaced rs) := by
  induction rs with
  | nil => rfl
  | cons a rest ih =>
    cases rest with
    | nil => rfl
    | cons b t =>
      have hsep : str ", " = [',', ' '] := rfl
      rw [joinRules, intercalate_cons_ne (str ", ") a (by simp),
        show List.intercalate (str ", ") (b :: t) = joinRules (b :: t) from rfl, ih,
        show spaced (a :: b :: t)
          = a :: (' ' :: b) :: t.map (fun r => ' ' :: r) from rfl,
        intercalate_cons_ne [','] a (by simp),
        intercalate_cons_head [','] ' ' b (t.map (fun r => ' ' :: r)),
        show spaced (b :: t) = b :: t.map (fun r => ' ' :: r) from rfl, hsep]
      simp

theorem splitOn_joinRules {rs : List Str}
    (h : ∀ r ∈ rs, (',' : Char) ∉ r) (hne : rs ≠ []) :
    (joinRules rs).splitOn ',' = spaced rs := by
  rw [joinRules_eq_spaced]
  apply List.splitOn_intercalate
  · intro l hl
    cases rs with
    | nil => simp [spaced] at hl
    | cons a rest =>
      simp only [spaced, List.mem_cons] at hl
      rcases hl with rfl | hl
      · exact h l (by simp)
      · obtain ⟨r, hr, rfl⟩ := List.mem_map.mp hl
        intro hc
        rcases List.mem_cons.mp hc with hc | hc
        · exact absurd hc (by decide)
        · exact h r (by simp [hr]) hc
  · cases rs with
    | nil => exact absurd rfl hne
    | cons a rest => simp [spaced]

theorem pyStrip_cons_space (r : Str) : pyStrip (' ' :: r) = pyStrip r := by
  unfold pyStrip
  rw [List.dropWhile_cons_of_pos (by decide)]

theorem map_pyStrip_space_map {l : List Str} (h : ∀ r ∈ l, pyStrip r = r) :
    (l.map (fun r => ' ' :: r)).map pyStrip = l := by
  induction l with
  | nil => rfl
  | cons a t ih =>
    simp only [List.map_cons]
    rw [pyStrip_cons_space, h a (by simp), ih (fun r hr => h r (by simp [hr]))]

/-- C7 counterexample: a rules list whose single rule itself contains a comma
does not survive the display round-trip, so the round-trip law does not hold
for every rules list. -/
theorem rules_roundtrip_cx :
    parseRules (joinRules [str "a,b"]) ≠ [str "a,b"] := by decide

/-- C7 amended: for every rules list whose rules are non-empty, contain no
comma and carry no surrounding whitespace (such as the list of required and
min:0), serializing to the comma-joined display text and re-parsing by
splitting on commas and stripping yields the original list. -/
theorem rules_roundtrip (rs : List Str)
    (h : ∀ r ∈ rs, r ≠ [] ∧ (',' : Char) ∉ r ∧ pyStrip r = r) :
    parseRules (joinRules rs) = rs := by
  cases rs with
  | nil => rfl
  | cons a rest =>
    have hne : joinRules (a :: rest) ≠ [] := by
      rw [joinRules_eq_spaced]
      cases rest with
      | nil =>
        simpa [List.intercalate, spaced] using (h a (by simp)).1
      | cons b t =>
        rw [show spaced (a :: b :: t)
            = a :: (' ' :: b) :: t.map (fun r => ' ' :: r) from rfl,
          intercalate_cons_ne [','] a (by simp)]
        simp
    rw [parseRules, if_neg hne,
      splitOn_joinRules (fun r hr => (h r hr).2.1) (by simp),
      show spaced (a :: rest) = a :: rest.map (fun r => ' ' :: r) from rfl,
      List.map_cons, (h a (by simp)).2.2,
      map_pyStrip_space_map (fun r hr => (h r (by simp [hr])).2.2)]

/-- Witness for C7 at the concrete list from the specification. -/
theorem rules_roundtrip_w :
    parseRules (joinRules [str "required", str "min:0"])
      = [str "required", str "min:0"] :=
  rules_roundtrip [str "required", str "min:0"] (by decide)

/-! Properties of the save path built by main. -/

theorem takeWhile_all_append {α : Type} (p : α → Bool) {A : List α}
    (hA : ∀ a ∈ A, p a = true) {b : α} (hb : p b = false) (rest : List α) :
    (A ++ b :: rest).takeWhile p = A := by
  induction A with
  | nil => simp [List.takeWhile_cons, hb]
  | cons a A ih =>
    simp only [List.cons_append, List.takeWhile_cons, hA a (by simp), if_true]
    rw [ih (fun x hx => hA x (by simp [hx]))]

theorem pyBasename_no_slash (p : Str) : ('/' : Char) ∉ pyBasename p := by
  intro h
  rw [pyBasename, List.mem_reverse] at h
  have := List.mem_takeWhile_imp h
  simp at this

theorem pyBasename_after_slash {x N : Str} (h : ('/' : Char) ∉ N) :
    pyBasename (x ++ '/' :: N) = N := by
  have hA : ∀ a ∈ N.reverse, (fun c => !(c == '/')) a = true := by
    intro a ha
    rw [List.mem_reverse] at ha
    have hne : a ≠ '/' := fun hc => h (hc ▸ ha)
    simp [hne]
  have hb : (fun c => !(c == '/')) '/' = false := by decide
  rw [pyBasename, List.reverse_append, List.reverse_cons, List.append_assoc,
    show ([('/' : Char)] ++ x.reverse) = '/' :: x.reverse from rfl,
    takeWhile_all_append _ hA hb, List.reverse_reverse]

theorem splitext_append (f : Str) : (splitext f).1 ++ (splitext f).2 = f := by
  unfold splitext
  split
  · simp
  · next c rrest heq =>
    split
    · simp
    · have h2 : f.reverse.takeWhile (fun x => !(x == '.')) ++ (c :: rrest)
          = f.reverse := by
        rw [← heq]
        exact List.takeWhile_append_dropWhile _ _
      have h3 := congrArg List.reverse h2
      rw [List.reverse_append, List.reverse_reverse, List.reverse_cons] at h3
      conv_rhs => rw [← h3]
      simp [List.append_assoc]

theorem splitext_ext_shape (f : Str) :
    (splitext f).2 = [] ∨ ∃ t, (splitext f).2 = '.' :: t := by
  unfold splitext
  split
  · exact Or.inl rfl
  · next c rrest heq =>
    split
    · exact Or.inl rfl
    · refine Or.inr ⟨(f.reverse.takeWhile (fun x => !(x == '.'))).reverse, ?_⟩
      have hc : (fun x => !(x == '.')) c = false := by
        have hmatch := List.head?_dropWhile_not (fun x => !(x == '.')) f.reverse
        rw [heq] at hmatch
        simpa using hmatch
      have hcdot : c = '.' := by simpa using hc
      rw [hcdot]

theorem save_path_ne (p ts : Str) (hts : ('/' : Char) ∉ ts) :
    save_path p ts ≠ p := by
  intro heq
  have hform : save_path p ts
      = str "./temp" ++ '/' ::
        ((splitext (pyBasename p)).1 ++ (str "_edited_" ++ (ts ++ str ".json"))) := by
    have h1 : str "./temp/" = str "./temp" ++ ['/'] := by decide
    simp only [save_path]
    rw [h1]
    simp [List.append_assoc]
  have hNnoslash : ('/' : Char)
      ∉ (splitext (pyBasename p)).1 ++ (str "_edited_" ++ (ts ++ str ".json")) := by
    intro hmem
    rcases List.mem_append.mp hmem with hmem | hmem
    · have hinB : ('/' : Char) ∈ pyBasename p := by
        rw [← splitext_append (pyBasename p)]
        exact List.mem_append_left _ hmem
      exact pyBasename_no_slash p hinB
    · rcases List.mem_append.mp hmem with hmem | hmem
      · exact absurd hmem (by decide)
      · rcases List.mem_append.mp hmem with hmem | hmem
        · exact hts hmem
        · exact absurd hmem (by decide)
  have hBN : pyBasename p
      = (splitext (pyBasename p)).1 ++ (str "_edited_" ++ (ts ++ str ".json")) := by
    conv_lhs => rw [← heq]
    rw [hform]
    exact pyBasename_after_slash hNnoslash
  have hER : (splitext (pyBasename p)).2 = str "_edited_" ++ (ts ++ str ".json") :=
    List.append_cancel_left ((splitext_append (pyBasename p)).trans hBN)
  rcases splitext_ext_shape (pyBasename p) with hE0 | ⟨t, hEdot⟩
  · rw [hE0] at hER
    exact List.noConfusion
      (show ([] : Str) = '_' :: (str "edited_" ++ (ts ++ str ".json")) from hER)
  · rw [hEdot] at hER
    have h2 : ('.' : Char) :: t = '_' :: (str "edited_" ++ (ts ++ str ".json")) := hER
    injection h2 with h21 h22
    exact absurd h21 (by decide)

theorem digitChar_ne_slash (d : Nat) : digitChar d ≠ '/' := by
  unfold digitChar
  split <;> decide

theorem slash_not_mem_pad2 (n : Nat) : ('/' : Char) ∉ pad2 n := by
  intro h
  simp only [pad2, List.mem_cons, List.not_mem_nil, or_false] at h
  rcases h with h | h <;> exact digitChar_ne_slash _ h.symm

theorem slash_not_mem_pad4 (n : Nat) : ('/' : Char) ∉ pad4 n := by
  intro h
  simp only [pad4, List.mem_cons, List.not_mem_nil, or_false] at h
  rcases h with h | h | h | h <;> exact digitChar_ne_slash _ h.symm

theorem slash_not_mem_fmt (y mo d h mi s : Nat) :
    ('/' : Char) ∉ fmtTimestamp y mo d h mi s := by
  intro hmem
  simp only [fmtTimestamp, List.mem_append, List.mem_cons, List.not_mem_nil,
    or_false] at hmem
  rcases hmem with ((((((hc | hc) | hc) | hc) | hc) | hc) | hc)
  · exact slash_not_mem_pad4 y hc
  · exact slash_not_mem_pad2 mo hc
  · exact slash_not_mem_pad2 d hc
  · exact absurd hc (by decide)
  · exact slash_not_mem_pad2 h hc
  · exact slash_not_mem_pad2 mi hc
  · exact slash_not_mem_pad2 s hc

/-- C9: with the strftime timestamp of main, the save path (the original
base name stripped of its extension, suffixed with _edited_ and the
timestamp, under ./temp with a .json extension) is never equal to the input
path, so the input file is never overwritten. -/
theorem save_path_never_input (p : Str) (y mo d h mi s : Nat) :
    save_path p (fmtTimestamp y mo d h mi s) ≠ p :=
  save_path_ne p _ (slash_not_mem_fmt y mo d h mi s)

end DocProc
